import Mathlib

/-!
A shallow embedding of `flask_filecache.py` (the `FileCache` class): a
filesystem-backed key-value cache where each entry is one file in a single
cache directory, its content is the payload and its modification time encodes
the absolute expiry instant.

The cache directory is modelled as a list of files in filesystem listing
order.  Times are integers (seconds since epoch).  Fallible filesystem
primitives (per-name `stat`/`remove`, and the steps of the write path) are
driven by an explicit fault schedule `Faults` (including a flag for the
`os.listdir` call, which no `try` block guards); `noFaults` is the
fault-free run.  Python exceptions caught by `except (IOError, OSError)` correspond to
fault flags; an exception that is *not* an `IOError`/`OSError` (such as the
`UnboundLocalError` arising from the `timeout == 0` branch of `put`) is
modelled by the `PutRes.raised` outcome, which escapes the operation.
-/

set_option autoImplicit false

/-- Payload bytes. -/
abbrev Bytes := List Nat

/-- One file of the cache directory: name (relative to the directory),
content, modification time (repurposed as the expiry instant) and
permission bits. -/
structure File where
  name : String
  content : Bytes
  mtime : Int
  mode : Nat
deriving Repr, DecidableEq

/-- The cache directory: its files in filesystem listing order. -/
structure FS where
  files : List File
deriving Repr, DecidableEq

namespace FS

/-- Models `os.listdir`: the names of the directory entries, in listing order. -/
def names (fs : FS) : List String := fs.files.map File.name

/-- Look up the (first) file with the given name. -/
def findFile (fs : FS) (n : String) : Option File :=
  fs.files.find? (fun f => f.name == n)

/-- Models `os.path.getmtime`; `none` models the stat failing (file absent). -/
def mtimeOf (fs : FS) (n : String) : Option Int :=
  (fs.findFile n).map File.mtime

/-- The content of the named file, when it exists. -/
def contentOf (fs : FS) (n : String) : Option Bytes :=
  (fs.findFile n).map File.content

/-- Models `os.remove`: delete the named file. -/
def remove (fs : FS) (n : String) : FS :=
  ⟨fs.files.filter (fun f => f.name != n)⟩

/-- Create or replace a file (used for `mkstemp`, file writes and the
destination side of `os.rename` / `shutil.copy`). -/
def insert (fs : FS) (f : File) : FS :=
  ⟨(fs.remove f.name).files ++ [f]⟩

/-- Models `os.utime`: set the modification time of the named file. -/
def setMtime (fs : FS) (n : String) (t : Int) : FS :=
  ⟨fs.files.map (fun f => if f.name == n then { f with mtime := t } else f)⟩

/-- Models `os.chmod`: set the permission bits of the named file. -/
def setMode (fs : FS) (n : String) (m : Nat) : FS :=
  ⟨fs.files.map (fun f => if f.name == n then { f with mode := m } else f)⟩

end FS

/-- Which filesystem calls fail with an `IOError`/`OSError` during a run:
per-name faults for `stat`/`remove`, a flag for the `os.listdir` call of
`_list_dir` (whose failure is caught by no `try` block and therefore raises
out of `_prune`, `put`, `put_file` and `clear`), and one flag per step of
the write path of `put`/`put_file`. -/
structure Faults where
  statFail : String → Bool
  removeFail : String → Bool
  listFail : Bool
  mkstempFail : Bool
  writeFail : Bool
  renameFail : Bool
  utimeFail : Bool
  chmodFail : Bool
  copyFail : Bool

/-- The fault-free schedule: every filesystem call succeeds. -/
def noFaults : Faults :=
  ⟨fun _ => false, fun _ => false, false, false, false, false, false, false,
    false⟩

/-- The configuration of a `FileCache` after `init_app`: cache directory,
prune threshold, default timeout and file mode. -/
structure Config where
  path : String
  threshold : Nat
  timeout : Int
  mode : Nat
deriving Repr, DecidableEq

/-- Value of the module-level `DEFAULT_CONFIG` (directory, `FILECACHE_THRESHOLD = 500`,
`FILECACHE_TIMEOUT = 3000`, `FILECACHE_MODE = 0o600`). -/
def DEFAULT_CONFIG : Config :=
  ⟨"/tmp/flask-filecache.cache_dir", 500, 3000, 0o600⟩

/-- Models `os.path.join(dir, name)` for a relative `name`. -/
def pathJoin (d n : String) : String := d ++ "/" ++ n

/-- Value of `FileCache._fs_transaction_suffix`. -/
def tmpSuffix : String := "__cache_tmp"

/-- Models `os.path.basename`: the part of the path after the last slash. -/
def baseName (p : String) : String :=
  ⟨p.data.foldl (fun acc c => if c = '/' then [] else acc ++ [c]) []⟩

/-- Filesystem events emitted by the write paths, used to state the atomic
write protocol: direct content writes, temp-file creation, rename, and the
metadata stamps. -/
inductive Ev where
  | createTmp (name : String)
  | writeFile (name : String)
  | rename (src dst : String)
  | utime (name : String)
  | chmod (name : String)
deriving Repr, DecidableEq

/-- Outcome of `put`/`put_file`: a returned path, the `None` sentinel, or an
exception escaping the operation (not caught by `except (IOError, OSError)`).
Each outcome carries the directory state left behind. -/
inductive PutRes where
  | ok (p : String) (fs : FS)
  | failed (fs : FS)
  | raised (fs : FS)
deriving Repr, DecidableEq

/-- Whether the outcome is an escaped exception. -/
def PutRes.isRaised : PutRes → Bool
  | .raised _ => true
  | _ => false

/-- Outcome of the full `clear` method: the returned boolean, or an escaped
exception from the directory listing (the listing sits outside the
per-removal `try`). -/
inductive ClearRes where
  | returned (b : Bool) (fs : FS)
  | raised (fs : FS)
deriving Repr, DecidableEq

namespace FileCache

/-- The expiry computation at the top of `put`/`put_file`:
`expires = int(time.time() + self._timeout)` when `timeout is None`,
`expires = int(time.time() + timeout)` when `timeout != 0`, and — the
`timeout == 0` branch — no assignment at all, leaving `expires` unbound
(`none`). -/
def expiresOf (cfg : Config) (timeout : Option Int) (now : Int) : Option Int :=
  match timeout with
  | none => some (now + cfg.timeout)
  | some t => if t ≠ 0 then some (now + t) else none

/-- The body of the `try` block of `_prune`: iterate over the pre-computed
listing with `enumerate`; for each name, stat it and remove it when
`mtime < now or idx % 3 == 0`.  The whole loop is wrapped in a single
`try ... except (IOError, OSError): pass`, so the first failing `stat` or
`remove` aborts the remaining iterations, leaving the directory as it was
at that point. -/
def pruneGo (now : Int) (fl : Faults) : Nat → List String → FS → FS
  | _, [], fs => fs
  | idx, n :: rest, fs =>
    if fl.statFail n then fs
    else
      match fs.mtimeOf n with
      | none => fs
      | some m =>
        if m < now || idx % 3 == 0 then
          if fl.removeFail n then fs
          else pruneGo now fl (idx + 1) rest (fs.remove n)
        else pruneGo now fl (idx + 1) rest fs

/-- Models `FileCache._prune` given a successfully obtained listing: when
the entry count exceeds the threshold, run the eviction scan.  The listing
call itself sits outside the `try` of `_prune`, so its failure raises out
of `_prune` and out of `put`/`put_file` (which call `_prune` before their
own `try`); that escape is modelled at the call sites via
`Faults.listFail`. -/
def prune (cfg : Config) (fl : Faults) (now : Int) (fs : FS) : FS :=
  let entries := fs.names
  if entries.length > cfg.threshold then pruneGo now fl 0 entries fs else fs

/-- Models `FileCache.get`: stat the file; on any stat failure (absence included)
return `None`; if `mtime >= now` return the path; otherwise remove the file
and return `None` (a failing remove is swallowed, returning `None` with the
store unchanged). -/
def get (cfg : Config) (fl : Faults) (fs : FS) (filename : String) (now : Int) :
    Option String × FS :=
  if fl.statFail filename then (none, fs)
  else
    match fs.mtimeOf filename with
    | none => (none, fs)
    | some m =>
      if m ≥ now then (some (pathJoin cfg.path filename), fs)
      else if fl.removeFail filename then (none, fs)
      else (none, fs.remove filename)

/-- Models `FileCache.has`: the same validation as `get`, returning only the
boolean outcome. -/
def has (cfg : Config) (fl : Faults) (fs : FS) (filename : String) (now : Int) :
    Bool × FS :=
  if fl.statFail filename then (false, fs)
  else
    match fs.mtimeOf filename with
    | none => (false, fs)
    | some m =>
      if m ≥ now then (true, fs)
      else if fl.removeFail filename then (false, fs)
      else (false, fs.remove filename)

/-- Models `FileCache.delete`: remove the entry; `False` when it is absent or
the removal fails, `True` otherwise. -/
def delete (cfg : Config) (fl : Faults) (fs : FS) (filename : String) :
    Bool × FS :=
  if fl.removeFail filename then (false, fs)
  else
    match fs.findFile filename with
    | none => (false, fs)
    | some _ => (true, fs.remove filename)

/-- The loop of `FileCache.clear` over the pre-computed listing: each
removal is individually wrapped in `try ... except: return False`, so the
first failure stops the loop and returns `False` with the directory as it
is at that point. -/
def clearGo (fl : Faults) : List String → FS → Bool × FS
  | [], fs => (true, fs)
  | n :: rest, fs =>
    if fl.removeFail n then (false, fs)
    else clearGo fl rest (fs.remove n)

/-- Models the removal loop of `FileCache.clear` over a successfully
obtained listing. -/
def clear (cfg : Config) (fl : Faults) (fs : FS) : Bool × FS :=
  clearGo fl fs.names fs

/-- Models the full `FileCache.clear` method including the fallible
directory listing: `self._list_dir()` in the `for` statement is outside the
per-removal `try`, so its failure raises out of `clear`; on a successful
listing the method behaves as `clear`. -/
def clearRun (cfg : Config) (fl : Faults) (fs : FS) : ClearRes :=
  if fl.listFail then .raised fs
  else
    let r := clear cfg fl fs
    .returned r.1 r.2

/-- Models `FileCache.put`: compute `expires` (possibly left unbound when
`timeout == 0`), prune, then inside `try`: `mkstemp` a unique
suffix-carrying temp file, write the payload to it, `os.rename` it over the
destination, `os.utime` the destination to the expiry instant (here an
unbound `expires` raises, uncaught), `os.chmod` it, and return the path.
Any `IOError`/`OSError` yields `None` — with no cleanup of the temp file.
Also returns the trace of filesystem write events. -/
def put (cfg : Config) (fl : Faults) (fs : FS) (filename : String)
    (data : Bytes) (timeout : Option Int) (now : Int) (rand : String) :
    PutRes × List Ev :=
  let expires := expiresOf cfg timeout now
  if fl.listFail then (.raised fs, [])
  else
  let fs1 := prune cfg fl now fs
  let path := pathJoin cfg.path filename
  let tmp := rand ++ tmpSuffix
  if fl.mkstempFail then (.failed fs1, [])
  else
    let fs2 := fs1.insert ⟨tmp, [], now, 0o600⟩
    if fl.writeFail then (.failed fs2, [.createTmp tmp])
    else
      let fs3 := fs2.insert ⟨tmp, data, now, 0o600⟩
      if fl.renameFail then (.failed fs3, [.createTmp tmp, .writeFile tmp])
      else
        let fs4 := (fs3.remove tmp).insert ⟨filename, data, now, 0o600⟩
        match expires with
        | none => (.raised fs4, [.createTmp tmp, .writeFile tmp, .rename tmp path])
        | some e =>
          if fl.utimeFail then
            (.failed fs4, [.createTmp tmp, .writeFile tmp, .rename tmp path])
          else
            let fs5 := fs4.setMtime filename e
            if fl.chmodFail then
              (.failed fs5,
                [.createTmp tmp, .writeFile tmp, .rename tmp path, .utime path])
            else
              (.ok path (fs5.setMode filename cfg.mode),
                [.createTmp tmp, .writeFile tmp, .rename tmp path, .utime path,
                  .chmod path])

/-- Models `FileCache.put_file`: compute `expires` exactly as `put`, prune, then
inside `try`: `shutil.copy(path, self._path)` — a direct write of the
destination `dir/basename(path)`, with no temporary file and no rename —
then `os.utime` (an unbound `expires` raises, uncaught) and `os.chmod`. -/
def put_file (cfg : Config) (fl : Faults) (fs : FS) (src : String)
    (srcData : Bytes) (srcMode : Nat) (timeout : Option Int) (now : Int) :
    PutRes × List Ev :=
  let expires := expiresOf cfg timeout now
  if fl.listFail then (.raised fs, [])
  else
  let fs1 := prune cfg fl now fs
  let key := baseName src
  let cached := pathJoin cfg.path key
  if fl.copyFail then (.failed fs1, [])
  else
    let fs2 := fs1.insert ⟨key, srcData, now, srcMode⟩
    match expires with
    | none => (.raised fs2, [.writeFile cached])
    | some e =>
      if fl.utimeFail then (.failed fs2, [.writeFile cached])
      else
        let fs3 := fs2.setMtime key e
        if fl.chmodFail then (.failed fs3, [.writeFile cached, .utime cached])
        else
          (.ok cached (fs3.setMode key cfg.mode),
            [.writeFile cached, .utime cached, .chmod cached])

/-- Constructor arguments of `FileCache.__init__` (each optional). -/
structure InitArgs where
  cache_dir : Option String
  threshold : Option Nat
  timeout : Option Int
  mode : Option Nat

/-- Python truthiness for an optional string argument: `None` and `""` are
falsy. -/
def truthyStr : Option String → Option String
  | some s => if s == "" then none else some s
  | none => none

/-- Python truthiness for an optional numeric argument: `None` and `0` are
falsy. -/
def truthyNat : Option Nat → Option Nat
  | some v => if v == 0 then none else some v
  | none => none

/-- Python truthiness for an optional integer argument. -/
def truthyInt : Option Int → Option Int
  | some v => if v == 0 then none else some v
  | none => none

/-- Models `__init__` followed by `init_app`: the constructor stores an attribute only
when the argument is truthy (`if cache_dir: self._path = cache_dir`, …), and
`init_app` falls back to the configured value of the application (via a
`getattr` with the config entry as default) for every attribute never stored. -/
def initConfig (args : InitArgs) (appConfig : Config) : Config :=
  { path := (truthyStr args.cache_dir).getD appConfig.path
    threshold := (truthyNat args.threshold).getD appConfig.threshold
    timeout := (truthyInt args.timeout).getD appConfig.timeout
    mode := (truthyNat args.mode).getD appConfig.mode }

/-- Specification-side characterization of a fault-free prune scan, following
the spec wording: keep exactly the entries whose 0-based listing position
`idx` and stored expiry fail the eviction condition
`stored_expiry < now or idx mod 3 == 0`. -/
def pruneKeep (now : Int) : Nat → List File → List File
  | _, [] => []
  | idx, f :: rest =>
    if f.mtime < now || idx % 3 == 0 then pruneKeep now (idx + 1) rest
    else f :: pruneKeep now (idx + 1) rest

end FileCache

/-- Tests whether a file name carries the reserved transient suffix. -/
def hasTmpSuffix (s : String) : Bool := tmpSuffix.data.isSuffixOf s.data

/-! ## Helper lemmas about the filesystem model -/

theorem FS.names_setMtime (fs : FS) (n : String) (t : Int) :
    (fs.setMtime n t).names = fs.names := by
  simp only [FS.names, FS.setMtime, List.map_map]
  apply List.map_congr_left
  intro f _
  simp only [Function.comp_apply]
  split <;> rfl

theorem FS.names_setMode (fs : FS) (n : String) (m : Nat) :
    (fs.setMode n m).names = fs.names := by
  simp only [FS.names, FS.setMode, List.map_map]
  apply List.map_congr_left
  intro f _
  simp only [Function.comp_apply]
  split <;> rfl

theorem FS.mem_names_remove (fs : FS) (n x : String) :
    x ∈ (fs.remove n).names ↔ x ∈ fs.names ∧ x ≠ n := by
  simp only [FS.names, FS.remove, List.mem_map, List.mem_filter, bne_iff_ne,
    ne_eq]
  constructor
  · rintro ⟨f, ⟨hf, hne⟩, rfl⟩
    exact ⟨⟨f, hf, rfl⟩, hne⟩
  · rintro ⟨⟨f, hf, rfl⟩, hne⟩
    exact ⟨f, ⟨hf, hne⟩, rfl⟩

theorem FS.mem_names_insert (fs : FS) (f : File) (x : String) :
    x ∈ (fs.insert f).names ↔ (x ∈ fs.names ∧ x ≠ f.name) ∨ x = f.name := by
  simp only [FS.insert, FS.names] at *
  rw [List.map_append]
  simp only [List.mem_append, List.map_cons, List.map_nil, List.mem_singleton]
  constructor
  · rintro (h | h)
    · exact Or.inl ((FS.mem_names_remove fs f.name x).1 h)
    · exact Or.inr h
  · rintro (h | h)
    · exact Or.inl ((FS.mem_names_remove fs f.name x).2 h)
    · exact Or.inr h

theorem FileCache.names_pruneGo_subset (now : Int) (fl : Faults) :
    ∀ (l : List String) (idx : Nat) (fs : FS) (x : String),
      x ∈ (FileCache.pruneGo now fl idx l fs).names → x ∈ fs.names := by
  intro l
  induction l with
  | nil => intro idx fs x h; exact h
  | cons n rest ih =>
    intro idx fs x h
    unfold FileCache.pruneGo at h
    split at h
    · exact h
    · split at h
      · exact h
      · split at h
        · split at h
          · exact h
          · exact ((FS.mem_names_remove fs n x).1 (ih _ _ x h)).1
        · exact ih _ _ x h

theorem FileCache.names_prune_subset (cfg : Config) (fl : Faults) (now : Int)
    (fs : FS) (x : String) :
    x ∈ (FileCache.prune cfg fl now fs).names → x ∈ fs.names := by
  intro h
  by_cases hc : fs.names.length > cfg.threshold
  · simp only [FileCache.prune, if_pos hc] at h
    exact FileCache.names_pruneGo_subset now fl _ _ _ x h
  · simpa only [FileCache.prune, if_neg hc] using h

theorem List.find?_append_right {α : Type} (p : α → Bool) (l₁ l₂ : List α)
    (h : ∀ a ∈ l₁, p a = false) : (l₁ ++ l₂).find? p = l₂.find? p := by
  induction l₁ with
  | nil => rfl
  | cons a l ih =>
    simp only [List.cons_append, List.find?]
    rw [h a (List.mem_cons_self a l)]
    exact ih fun b hb => h b (List.mem_cons_of_mem a hb)

theorem FS.findFile_insert_self (fs : FS) (f : File) :
    (fs.insert f).findFile f.name = some f := by
  unfold FS.insert FS.findFile
  rw [List.find?_append_right]
  · simp [List.find?]
  · intro g hg
    have := (List.mem_filter.1 hg).2
    simp only [bne_iff_ne, ne_eq] at this
    simpa using this

theorem List.find?_name_map_update (n : String) (g : File → File)
    (hg : ∀ f, (g f).name = f.name) :
    ∀ l : List File,
      List.find? (fun f => f.name == n)
          (l.map (fun f => if f.name == n then g f else f)) =
        (List.find? (fun f => f.name == n) l).map g := by
  intro l
  induction l with
  | nil => rfl
  | cons f rest ih =>
    by_cases h : f.name == n
    · have h2 : ((g f).name == n) = true := by rw [hg]; exact h
      simp [List.find?, h, h2]
    · have h1 : (f.name == n) = false := by simpa using h
      simp only [List.map_cons]
      rw [if_neg h]
      simp only [List.find?, h1, cond_false]
      exact ih

theorem FS.findFile_setMtime_self (fs : FS) (n : String) (t : Int) :
    (fs.setMtime n t).findFile n =
      (fs.findFile n).map (fun f => { f with mtime := t }) :=
  List.find?_name_map_update n (fun f => { f with mtime := t })
    (fun _ => rfl) fs.files

theorem FS.findFile_setMode_self (fs : FS) (n : String) (m : Nat) :
    (fs.setMode n m).findFile n =
      (fs.findFile n).map (fun f => { f with mode := m }) :=
  List.find?_name_map_update n (fun f => { f with mode := m })
    (fun _ => rfl) fs.files

/-! ## Claim theorems -/

/-- C5: `get` returns the path of the entry exactly when the file exists and
its stored expiry instant is at least the current time; an existing but
expired entry is removed as a side effect with the miss sentinel returned;
an entry that cannot be stat-ed (absence included) yields the miss sentinel
with the store unmodified. -/
theorem get_validation (cfg : Config) (fs : FS) (key : String) (now : Int) :
    ((FileCache.get cfg noFaults fs key now).1 = some (pathJoin cfg.path key) ↔
      (∃ m, fs.mtimeOf key = some m ∧ now ≤ m)) ∧
    (∀ m, fs.mtimeOf key = some m → m < now →
      FileCache.get cfg noFaults fs key now = (none, fs.remove key)) ∧
    (fs.mtimeOf key = none →
      FileCache.get cfg noFaults fs key now = (none, fs)) := by
  have hsf : noFaults.statFail key = false := rfl
  have hrf : noFaults.removeFail key = false := rfl
  unfold FileCache.get
  rw [hsf]
  simp only [Bool.false_eq_true, if_false]
  cases hm : fs.mtimeOf key with
  | none =>
    dsimp only
    refine ⟨by simp, ?_, fun _ => rfl⟩
    intro m h _
    exact absurd h (by simp)
  | some m =>
    dsimp only
    by_cases hge : m ≥ now
    · rw [if_pos hge]
      refine ⟨?_, ?_, ?_⟩
      · constructor
        · intro _
          exact ⟨m, rfl, hge⟩
        · intro _
          rfl
      · intro m' hm' hlt
        injection hm' with h
        omega
      · intro h
        exact absurd h (by simp)
    · rw [if_neg hge, hrf]
      simp only [Bool.false_eq_true, if_false]
      refine ⟨?_, ?_, ?_⟩
      · constructor
        · intro h
          exact absurd h (by simp)
        · rintro ⟨m', hm', hle⟩
          injection hm' with h
          omega
      · intro m' hm' hlt
        trivial
      · intro h
        exact absurd h (by simp)

/-- C7: `has` performs the identical validation as `get` — it returns `True`
exactly when `get` returns a path, `False` exactly when `get` returns the
miss sentinel, and both leave the store in the same resulting state
(including the lazy deletion of an expired entry). -/
theorem has_agrees_with_get (cfg : Config) (fl : Faults) (fs : FS)
    (key : String) (now : Int) :
    (FileCache.has cfg fl fs key now).1 =
      ((FileCache.get cfg fl fs key now).1).isSome ∧
    (FileCache.has cfg fl fs key now).2 =
      (FileCache.get cfg fl fs key now).2 := by
  unfold FileCache.has FileCache.get
  by_cases hsf : fl.statFail key
  · simp [hsf]
  · simp only [hsf, Bool.false_eq_true, if_false]
    cases fs.mtimeOf key with
    | none => simp
    | some m =>
      by_cases hge : m ≥ now
      · simp [hge]
      · by_cases hrf : fl.removeFail key <;> simp [hge, hrf]

/-- C10: constructor arguments that are falsy in Python — a zero threshold,
zero timeout, zero mode, or an empty cache directory string — are silently
dropped by the `if arg:` truthiness guards of `__init__`, so after
`init_app` the corresponding configured value is used instead; with the
default application config those are threshold 500, timeout 3000 and mode
`0o600`. -/
theorem init_falsy_args_ignored :
    (∀ appConfig : Config,
      FileCache.initConfig ⟨some "", some 0, some 0, some 0⟩ appConfig =
        appConfig) ∧
    FileCache.initConfig ⟨some "", some 0, some 0, some 0⟩ DEFAULT_CONFIG =
      DEFAULT_CONFIG ∧
    DEFAULT_CONFIG.threshold = 500 ∧ DEFAULT_CONFIG.timeout = 3000 ∧
    DEFAULT_CONFIG.mode = 0o600 := by
  have h : ∀ appConfig : Config,
      FileCache.initConfig ⟨some "", some 0, some 0, some 0⟩ appConfig =
        appConfig := by
    intro c
    cases c
    simp [FileCache.initConfig, FileCache.truthyStr, FileCache.truthyNat,
      FileCache.truthyInt]
  exact ⟨h, h DEFAULT_CONFIG, rfl, rfl, rfl⟩

/-- C2 counterexample: calling `put` with an explicit timeout of exactly `0`
leaves the local `expires` unbound; the subsequent `os.utime(path, (expires,
expires))` raises an `UnboundLocalError`, which `except (IOError, OSError)`
does not catch, so the exception escapes the operation boundary — after the
payload has already been renamed into place. -/
theorem put_zero_timeout_raises :
    (FileCache.put ⟨"/c", 5, 3000, 0o600⟩ noFaults ⟨[]⟩ "k" [1, 2] (some 0)
        10 "r").1 =
      .raised ⟨[⟨"k", [1, 2], 10, 0o600⟩]⟩ := by decide

/-- C4 counterexample: with threshold 1 and four expired entries, a removal
failure on the entry at listing position 1 aborts the whole scan (the
single `try` wraps the entire loop), so the expired entries at positions 2
and 3 survive even though they meet the eviction condition — the claimed
behavior would leave only the entry whose removal failed. -/
theorem prune_failure_aborts_scan :
    FileCache.prune ⟨"/c", 1, 3000, 0o600⟩
        { noFaults with removeFail := fun n => n == "e1" } 10
        ⟨[⟨"e0", [], 5, 0⟩, ⟨"e1", [], 5, 0⟩, ⟨"e2", [], 5, 0⟩,
          ⟨"e3", [], 5, 0⟩]⟩ =
      ⟨[⟨"e1", [], 5, 0⟩, ⟨"e2", [], 5, 0⟩, ⟨"e3", [], 5, 0⟩]⟩ ∧
    ((5 : Int) < 10) ∧
    FS.mk [⟨"e1", [], 5, 0⟩, ⟨"e2", [], 5, 0⟩, ⟨"e3", [], 5, 0⟩] ≠
      FS.mk [⟨"e1", [], 5, 0⟩] := by decide

/-- C6 counterexample: `put_file` does not use the atomic-write protocol —
its event trace writes the destination path directly (via `shutil.copy`),
contains no rename and no temp-file creation, and the written name does not
carry the reserved suffix. -/
theorem put_file_writes_destination_directly :
    (FileCache.put_file ⟨"/c", 5, 3000, 0o600⟩ noFaults ⟨[]⟩ "/tmp/s" [3, 4]
        0o644 none 10).2 =
      [.writeFile "/c/s", .utime "/c/s", .chmod "/c/s"] ∧
    pathJoin "/c" (baseName "/tmp/s") = "/c/s" ∧
    hasTmpSuffix "/c/s" = false := by decide

/-- C9 counterexample: a `put` whose payload write fails returns the `None`
sentinel but performs no cleanup, leaving its suffix-carrying temporary
file in the cache directory after the operation completes. -/
theorem put_write_failure_leaves_tmp :
    (FileCache.put ⟨"/c", 5, 3000, 0o600⟩ { noFaults with writeFail := true }
        ⟨[]⟩ "k" [1, 2] none 10 "r").1 =
      .failed ⟨[⟨"r__cache_tmp", [], 10, 0o600⟩]⟩ ∧
    hasTmpSuffix "r__cache_tmp" = true := by decide

/-- C5 witness: a concrete expired entry is deleted as a side effect and the
miss sentinel is returned. -/
theorem get_validation_witness :
    FileCache.get ⟨"/c", 5, 3000, 0o600⟩ noFaults ⟨[⟨"k", [1, 2], 5, 384⟩]⟩
        "k" 10 =
      (none, FS.remove ⟨[⟨"k", [1, 2], 5, 384⟩]⟩ "k") :=
  (get_validation ⟨"/c", 5, 3000, 0o600⟩ ⟨[⟨"k", [1, 2], 5, 384⟩]⟩ "k"
    10).2.1 5 (by decide) (by decide)

/-- C4 (amended): the first failing stat or removal during the prune scan
aborts the remaining iterations entirely, leaving the directory exactly as
it was at that point — later listed entries are not examined, so an
eviction-eligible entry after the failure point survives. -/
theorem pruneGo_failure_aborts (now : Int) (fl : Faults) (idx : Nat)
    (n : String) (rest : List String) (fs : FS)
    (h : fl.statFail n = true ∨
      ∃ m, fs.mtimeOf n = some m ∧ (m < now ∨ idx % 3 = 0) ∧
        fl.removeFail n = true) :
    FileCache.pruneGo now fl idx (n :: rest) fs = fs := by
  unfold FileCache.pruneGo
  rcases h with h | ⟨m, hm, hcond, hrm⟩
  · rw [if_pos h]
  · by_cases hs : fl.statFail n = true
    · rw [if_pos hs]
    · rw [if_neg hs, hm]
      dsimp only
      have hb : (decide (m < now) || idx % 3 == 0) = true := by
        rcases hcond with h1 | h1 <;> simp [h1]
      simp only [hb, if_true, hrm]

/-- C4 witness: the abort theorem applied at a concrete failing removal. -/
theorem pruneGo_failure_aborts_witness :
    FileCache.pruneGo 10 { noFaults with removeFail := fun n => n == "e1" } 1
        ["e1", "e2", "e3"]
        ⟨[⟨"e1", [], 5, 0⟩, ⟨"e2", [], 5, 0⟩, ⟨"e3", [], 5, 0⟩]⟩ =
      ⟨[⟨"e1", [], 5, 0⟩, ⟨"e2", [], 5, 0⟩, ⟨"e3", [], 5, 0⟩]⟩ :=
  pruneGo_failure_aborts 10 _ 1 "e1" ["e2", "e3"] _
    (Or.inr ⟨5, by decide, by decide, by decide⟩)

/-- C2 (amended): exceptions escape the public operation boundary in
exactly two ways.  First, an explicit timeout of exactly zero makes `put`
and `put_file` reach `os.utime` with the expiry unbound and raise an
uncaught error.  Second, a failure of the directory listing raises an
uncaught `OSError` out of `put` and `put_file` (their `_prune` call
precedes their `try` blocks and the listing sits outside the `try` of
`_prune`) and out of `clear` (the listing is outside its per-removal
`try`).  For every input with a non-zero timeout and a successful listing,
`put` and `put_file` never raise — every failure becomes the `None`
sentinel — and `get`/`has`/`delete` return their sentinels by
construction. -/
theorem op_raise_characterization (cfg : Config) (fl : Faults) (fs : FS)
    (key : String) (data : Bytes) (t : Option Int) (now : Int) (rand : String)
    (src : String) (srcData : Bytes) (srcMode : Nat) :
    (t ≠ some 0 → fl.listFail = false →
      (FileCache.put cfg fl fs key data t now rand).1.isRaised = false ∧
      (FileCache.put_file cfg fl fs src srcData srcMode t now).1.isRaised =
        false) ∧
    (fl.listFail = true →
      (FileCache.put cfg fl fs key data t now rand).1 = .raised fs ∧
      (FileCache.put_file cfg fl fs src srcData srcMode t now).1 =
        .raised fs ∧
      FileCache.clearRun cfg fl fs = .raised fs) := by
  constructor
  · intro h hl
    obtain ⟨e, he⟩ : ∃ e, FileCache.expiresOf cfg t now = some e := by
      cases t with
      | none => exact ⟨now + cfg.timeout, rfl⟩
      | some v =>
        have hv : v ≠ 0 := fun hv0 => h (by rw [hv0])
        exact ⟨now + v, by simp [FileCache.expiresOf, hv]⟩
    constructor
    · simp only [FileCache.put, he, hl]
      repeat' split
      all_goals simp_all [PutRes.isRaised]
    · simp only [FileCache.put_file, he, hl]
      repeat' split
      all_goals simp_all [PutRes.isRaised]
  · intro hl
    refine ⟨?_, ?_, ?_⟩ <;>
      simp [FileCache.put, FileCache.put_file, FileCache.clearRun, hl]

/-- C2 witness: the characterization applied at a concrete input with the
timeout omitted and the listing succeeding, and at a concrete input whose
listing fails (making `clear` raise). -/
theorem op_raise_characterization_witness :
    ((FileCache.put ⟨"/c", 5, 3000, 0o600⟩ noFaults ⟨[]⟩ "k" [1] none 10
        "r").1.isRaised = false ∧
      (FileCache.put_file ⟨"/c", 5, 3000, 0o600⟩ noFaults ⟨[]⟩ "/tmp/s" [2]
        0o644 none 10).1.isRaised = false) ∧
    FileCache.clearRun ⟨"/c", 5, 3000, 0o600⟩
        { noFaults with listFail := true } ⟨[]⟩ = .raised ⟨[]⟩ :=
  ⟨(op_raise_characterization ⟨"/c", 5, 3000, 0o600⟩ noFaults ⟨[]⟩ "k" [1]
      none 10 "r" "/tmp/s" [2] 0o644).1 (by simp) rfl,
    ((op_raise_characterization ⟨"/c", 5, 3000, 0o600⟩
      { noFaults with listFail := true } ⟨[]⟩ "k" [1] none 10 "r" "/tmp/s"
      [2] 0o644).2 rfl).2.2⟩

/-! ## Prune and clear: fault-free and first-failure characterizations -/

theorem List.filter_name_ne_of_not_mem (l : List File) (n : String)
    (h : n ∉ l.map File.name) : l.filter (fun f => f.name != n) = l := by
  induction l with
  | nil => rfl
  | cons f rest ih =>
    have h1 : f.name ≠ n := by
      intro e
      exact h (by simp [e])
    have h2 : n ∉ rest.map File.name := fun hx => h (by simp [hx])
    have hb : (f.name != n) = true := by simpa using h1
    simp [List.filter, hb, ih h2]

theorem FS.remove_middle (done rest : List File) (f : File)
    (hd : f.name ∉ done.map File.name) (hr : f.name ∉ rest.map File.name) :
    FS.remove ⟨done ++ f :: rest⟩ f.name = ⟨done ++ rest⟩ := by
  unfold FS.remove
  congr 1
  rw [List.filter_append, List.filter_name_ne_of_not_mem done f.name hd]
  congr 1
  have h1 : (f.name != f.name) = false := by simp
  simp only [List.filter, h1]
  exact List.filter_name_ne_of_not_mem rest f.name hr

theorem FS.mtimeOf_middle (done rest : List File) (f : File)
    (hd : f.name ∉ done.map File.name) :
    FS.mtimeOf ⟨done ++ f :: rest⟩ f.name = some f.mtime := by
  unfold FS.mtimeOf FS.findFile
  rw [List.find?_append_right _ done _ ?ha]
  · simp [List.find?]
  · intro g hg
    have : g.name ≠ f.name := fun e => hd (List.mem_map.mpr ⟨g, hg, e⟩)
    simpa using this

theorem FileCache.pruneGo_noFaults_spec (now : Int) :
    ∀ (pending done : List File) (idx : Nat),
      ((done ++ pending).map File.name).Nodup →
      FileCache.pruneGo now noFaults idx (pending.map File.name)
          ⟨done ++ pending⟩ =
        ⟨done ++ FileCache.pruneKeep now idx pending⟩ := by
  intro pending
  induction pending with
  | nil =>
    intro done idx _
    simp [FileCache.pruneGo, FileCache.pruneKeep]
  | cons f rest ih =>
    intro done idx h
    have h0 := h
    rw [show (done ++ f :: rest).map File.name =
        done.map File.name ++ f.name :: rest.map File.name by simp] at h
    rw [List.nodup_middle] at h
    obtain ⟨hf_not, hrest_nodup⟩ := List.nodup_cons.mp h
    have hd : f.name ∉ done.map File.name :=
      fun hx => hf_not (List.mem_append.mpr (Or.inl hx))
    have hr : f.name ∉ rest.map File.name :=
      fun hx => hf_not (List.mem_append.mpr (Or.inr hx))
    have hsf : noFaults.statFail f.name = false := rfl
    have hrf : noFaults.removeFail f.name = false := rfl
    simp only [List.map_cons, FileCache.pruneGo, hsf, Bool.false_eq_true,
      if_false]
    rw [FS.mtimeOf_middle done rest f hd]
    dsimp only
    cases hb : (decide (f.mtime < now) || idx % 3 == 0) with
    | true =>
      simp only [hb, if_true, hrf, Bool.false_eq_true, if_false]
      rw [FS.remove_middle done rest f hd hr]
      rw [ih done (idx + 1) (by rw [List.map_append]; exact hrest_nodup)]
      congr 1
      simp [FileCache.pruneKeep, hb]
    | false =>
      simp only [hb, Bool.false_eq_true, if_false]
      have step := ih (done ++ [f]) (idx + 1)
        (by rw [show (done ++ [f]) ++ rest = done ++ f :: rest by simp]
            exact h0)
      rw [show (done ++ [f]) ++ rest = done ++ f :: rest by simp] at step
      rw [step]
      congr 1
      rw [show FileCache.pruneKeep now idx (f :: rest) =
          f :: FileCache.pruneKeep now (idx + 1) rest by
        simp [FileCache.pruneKeep, hb]]
      simp

/-- C3: with distinct entry names and no filesystem faults, the prune pass
is exact — when the entry count strictly exceeds the threshold it removes
precisely the entries whose 0-based listing position `i` satisfies
`stored_expiry < now` or `i mod 3 == 0` and keeps every other entry intact
and in order; at or below the threshold it removes nothing. -/
theorem prune_spec (cfg : Config) (fs : FS) (now : Int)
    (h : fs.names.Nodup) :
    FileCache.prune cfg noFaults now fs =
      if fs.files.length > cfg.threshold then
        ⟨FileCache.pruneKeep now 0 fs.files⟩
      else fs := by
  obtain ⟨l⟩ := fs
  by_cases hc : l.length > cfg.threshold
  · rw [if_pos hc]
    have step := FileCache.pruneGo_noFaults_spec now l [] 0
      (by simpa [FS.names] using h)
    simp only [List.nil_append] at step
    simpa [FileCache.prune, FS.names, hc] using step
  · rw [if_neg hc]
    simp [FileCache.prune, FS.names, hc]

/-- C3 witness: four fresh entries over threshold 1; the entries at listing
positions 0 and 3 are evicted and the others kept. -/
theorem prune_spec_witness :
    FileCache.prune ⟨"/c", 1, 3000, 0o600⟩ noFaults 10
        ⟨[⟨"e0", [], 99, 0⟩, ⟨"e1", [], 99, 0⟩, ⟨"e2", [], 99, 0⟩,
          ⟨"e3", [], 99, 0⟩]⟩ =
      ⟨[⟨"e1", [], 99, 0⟩, ⟨"e2", [], 99, 0⟩]⟩ := by
  rw [prune_spec ⟨"/c", 1, 3000, 0o600⟩
    ⟨[⟨"e0", [], 99, 0⟩, ⟨"e1", [], 99, 0⟩, ⟨"e2", [], 99, 0⟩,
      ⟨"e3", [], 99, 0⟩]⟩ 10 (by decide)]
  decide

theorem FileCache.clearGo_all_ok (fl : Faults) :
    ∀ l : List File, (l.map File.name).Nodup →
      (∀ f ∈ l, fl.removeFail f.name = false) →
      FileCache.clearGo fl (l.map File.name) ⟨l⟩ = (true, ⟨[]⟩) := by
  intro l
  induction l with
  | nil => intro _ _; rfl
  | cons f rest ih =>
    intro h hok
    rw [List.map_cons] at h
    obtain ⟨hf_not, hrest⟩ := List.nodup_cons.mp h
    simp only [List.map_cons, FileCache.clearGo,
      hok f (List.mem_cons_self f rest), Bool.false_eq_true, if_false]
    rw [show FS.remove ⟨f :: rest⟩ f.name = ⟨rest⟩ from
      FS.remove_middle [] rest f (by simp) hf_not]
    exact ih hrest fun g hg => hok g (List.mem_cons_of_mem f hg)

theorem FileCache.clearGo_first_failure (fl : Faults) :
    ∀ (l₁ : List File) (f : File) (l₂ : List File),
      ((l₁ ++ f :: l₂).map File.name).Nodup →
      (∀ g ∈ l₁, fl.removeFail g.name = false) →
      fl.removeFail f.name = true →
      FileCache.clearGo fl ((l₁ ++ f :: l₂).map File.name) ⟨l₁ ++ f :: l₂⟩ =
        (false, ⟨f :: l₂⟩) := by
  intro l₁
  induction l₁ with
  | nil =>
    intro f l₂ _ _ hf
    simp [FileCache.clearGo, hf]
  | cons g l ih =>
    intro f l₂ h hok hf
    rw [List.cons_append, List.map_cons] at h
    obtain ⟨hg_not, hrest⟩ := List.nodup_cons.mp h
    simp only [List.cons_append, List.map_cons, FileCache.clearGo,
      hok g (List.mem_cons_self g l), Bool.false_eq_true, if_false]
    rw [show FS.remove ⟨g :: (l ++ f :: l₂)⟩ g.name = ⟨l ++ f :: l₂⟩ from
      FS.remove_middle [] (l ++ f :: l₂) g (by simp) (by simpa using hg_not)]
    exact ih f l₂ hrest
      (fun x hx => hok x (List.mem_cons_of_mem g hx)) hf

/-- C8: with distinct entry names, `clear` removes every file and returns
`True` when every removal succeeds; when a removal fails it stops right
there and returns `False`, with every entry listed before the failing one
removed and the failing entry and every later one untouched. -/
theorem clear_spec (cfg : Config) (fl : Faults) (fs : FS)
    (h : fs.names.Nodup) :
    ((∀ f ∈ fs.files, fl.removeFail f.name = false) →
      FileCache.clear cfg fl fs = (true, ⟨[]⟩)) ∧
    (∀ l₁ f l₂, fs.files = l₁ ++ f :: l₂ →
      (∀ g ∈ l₁, fl.removeFail g.name = false) →
      fl.removeFail f.name = true →
      FileCache.clear cfg fl fs = (false, ⟨f :: l₂⟩)) := by
  obtain ⟨l⟩ := fs
  constructor
  · intro hok
    exact FileCache.clearGo_all_ok fl l (by simpa [FS.names] using h) hok
  · rintro l₁ f l₂ hsplit hok hf
    dsimp only at hsplit
    subst hsplit
    exact FileCache.clearGo_first_failure fl l₁ f l₂
      (by simpa [FS.names] using h) hok hf

/-- C8 witness: a failing removal at listing position 1 leaves the failing
entry and the one after it, with the entry before it removed. -/
theorem clear_spec_witness :
    FileCache.clear ⟨"/c", 1, 3000, 0o600⟩
        { noFaults with removeFail := fun n => n == "e1" }
        ⟨[⟨"e0", [], 5, 0⟩, ⟨"e1", [], 5, 0⟩, ⟨"e2", [], 5, 0⟩]⟩ =
      (false, ⟨[⟨"e1", [], 5, 0⟩, ⟨"e2", [], 5, 0⟩]⟩) :=
  (clear_spec ⟨"/c", 1, 3000, 0o600⟩
    { noFaults with removeFail := fun n => n == "e1" }
    ⟨[⟨"e0", [], 5, 0⟩, ⟨"e1", [], 5, 0⟩, ⟨"e2", [], 5, 0⟩]⟩ (by decide)).2
    [⟨"e0", [], 5, 0⟩] ⟨"e1", [], 5, 0⟩ [⟨"e2", [], 5, 0⟩] rfl (by decide)
    (by decide)

/-! ## Inversion of a successful put -/

theorem FileCache.put_ok_inv (cfg : Config) (fl : Faults) (fs : FS)
    (key : String) (data : Bytes) (t : Option Int) (now : Int) (rand : String)
    (p : String) (fs2 : FS)
    (h : (FileCache.put cfg fl fs key data t now rand).1 = .ok p fs2) :
    p = pathJoin cfg.path key ∧
    (∃ e, FileCache.expiresOf cfg t now = some e ∧
      fs2 =
        ((((((FileCache.prune cfg fl now fs).insert
          ⟨rand ++ tmpSuffix, [], now, 0o600⟩).insert
          ⟨rand ++ tmpSuffix, data, now, 0o600⟩).remove
          (rand ++ tmpSuffix)).insert
          ⟨key, data, now, 0o600⟩).setMtime key e).setMode key cfg.mode) ∧
    (FileCache.put cfg fl fs key data t now rand).2 =
      [.createTmp (rand ++ tmpSuffix), .writeFile (rand ++ tmpSuffix),
        .rename (rand ++ tmpSuffix) p, .utime p, .chmod p] := by
  simp only [FileCache.put] at h ⊢
  have h0 : ¬ fl.listFail = true := by
    intro hc
    rw [if_pos hc] at h
    simp at h
  rw [if_neg h0] at h ⊢
  by_cases h1 : fl.mkstempFail = true
  · rw [if_pos h1] at h
    simp at h
  · rw [if_neg h1] at h ⊢
    by_cases h2 : fl.writeFail = true
    · rw [if_pos h2] at h
      simp at h
    · rw [if_neg h2] at h ⊢
      by_cases h3 : fl.renameFail = true
      · rw [if_pos h3] at h
        simp at h
      · rw [if_neg h3] at h ⊢
        cases heq : FileCache.expiresOf cfg t now with
        | none =>
          rw [heq] at h
          simp at h
        | some e =>
          rw [heq] at h
          dsimp only at h ⊢
          by_cases h4 : fl.utimeFail = true
          · rw [if_pos h4] at h
            simp at h
          · rw [if_neg h4] at h ⊢
            by_cases h5 : fl.chmodFail = true
            · rw [if_pos h5] at h
              simp at h
            · rw [if_neg h5] at h ⊢
              dsimp only at h ⊢
              injection h with hp hfs
              subst hp
              subst hfs
              exact ⟨rfl, ⟨e, rfl, rfl⟩, rfl⟩

/-- C1: whenever `put` succeeds (returns a path) and `get` for the same key
is evaluated at any instant up to the stored expiry instant, `get` returns
that very path and the file at the key holds exactly the stored payload. -/
theorem put_get_roundtrip (cfg : Config) (fl : Faults) (fs : FS)
    (key : String) (data : Bytes) (t : Option Int) (now now2 : Int)
    (rand : String) (p : String) (fs2 : FS) (m : Int)
    (hok : (FileCache.put cfg fl fs key data t now rand).1 = .ok p fs2)
    (hm : fs2.mtimeOf key = some m) (hnow : now2 ≤ m) :
    FileCache.get cfg noFaults fs2 key now2 = (some p, fs2) ∧
    fs2.contentOf key = some data := by
  obtain ⟨hp, ⟨e, heq, hfs⟩, -⟩ :=
    FileCache.put_ok_inv _ _ _ _ _ _ _ _ _ _ hok
  subst hp
  have hfind : fs2.findFile key = some ⟨key, data, e, cfg.mode⟩ := by
    rw [hfs]
    rw [FS.findFile_setMode_self, FS.findFile_setMtime_self]
    rw [show (((((FileCache.prune cfg fl now fs).insert
        ⟨rand ++ tmpSuffix, [], now, 0o600⟩).insert
        ⟨rand ++ tmpSuffix, data, now, 0o600⟩).remove
        (rand ++ tmpSuffix)).insert
        ⟨key, data, now, 0o600⟩).findFile key =
          some ⟨key, data, now, 0o600⟩ from
      FS.findFile_insert_self _ ⟨key, data, now, 0o600⟩]
    rfl
  have hmt : fs2.mtimeOf key = some e := by
    unfold FS.mtimeOf
    rw [hfind]
    rfl
  rw [hmt] at hm
  injection hm with hme
  subst hme
  have hsf : noFaults.statFail key = false := rfl
  constructor
  · unfold FileCache.get
    rw [hsf]
    simp only [Bool.false_eq_true, if_false]
    rw [hmt]
    dsimp only
    rw [if_pos (by omega : e ≥ now2)]
  · unfold FS.contentOf
    rw [hfind]
    rfl

/-- C1 witness: a concrete successful `put` on an empty store followed by a
`get` one tick later returns the path and the exact payload. -/
theorem put_get_roundtrip_witness :
    FileCache.get ⟨"/c", 5, 3000, 0o600⟩ noFaults
        ⟨[⟨"k", [1, 2], 3010, 384⟩]⟩ "k" 11 =
      (some "/c/k", ⟨[⟨"k", [1, 2], 3010, 384⟩]⟩) ∧
    FS.contentOf ⟨[⟨"k", [1, 2], 3010, 384⟩]⟩ "k" = some [1, 2] :=
  put_get_roundtrip ⟨"/c", 5, 3000, 0o600⟩ noFaults ⟨[]⟩ "k" [1, 2] none 10
    11 "r" "/c/k" ⟨[⟨"k", [1, 2], 3010, 384⟩]⟩ 3010 (by decide) (by decide)
    (by decide)

/-- C9 (amended): after a `put` that returns a path, the temporary file it
created is no longer in the directory (provided the random temp name does
not collide with the key itself); a `put` that fails before the rename
completes, by contrast, leaves its temporary file behind. -/
theorem put_ok_removes_tmp (cfg : Config) (fl : Faults) (fs : FS)
    (key : String) (data : Bytes) (t : Option Int) (now : Int) (rand : String)
    (p : String) (fs2 : FS)
    (hok : (FileCache.put cfg fl fs key data t now rand).1 = .ok p fs2)
    (hne : rand ++ tmpSuffix ≠ key) :
    (rand ++ tmpSuffix) ∉ fs2.names := by
  obtain ⟨-, ⟨e, -, hfs⟩, -⟩ :=
    FileCache.put_ok_inv _ _ _ _ _ _ _ _ _ _ hok
  intro hmem
  rw [hfs, FS.names_setMode, FS.names_setMtime] at hmem
  rcases (FS.mem_names_insert _ ⟨key, data, now, 0o600⟩ _).1 hmem with
    ⟨hin, -⟩ | hkey
  · rcases (FS.mem_names_remove _ _ _).1 hin with ⟨-, hne2⟩
    exact hne2 rfl
  · exact hne hkey

/-- C9 witness: the cleanup theorem applied to a concrete successful put. -/
theorem put_ok_removes_tmp_witness :
    ("r" ++ tmpSuffix) ∉ FS.names ⟨[⟨"k", [1, 2], 3010, 384⟩]⟩ :=
  put_ok_removes_tmp ⟨"/c", 5, 3000, 0o600⟩ noFaults ⟨[]⟩ "k" [1, 2] none 10
    "r" "/c/k" ⟨[⟨"k", [1, 2], 3010, 384⟩]⟩ (by decide) (by decide)

/-- Inversion of a successful `put_file`: the returned path is the cache
path of the source basename, and the event trace is a direct write of that
destination followed by the metadata stamps. -/
theorem FileCache.put_file_ok_inv (cfg : Config) (fl : Faults) (fs : FS)
    (src : String) (srcData : Bytes) (srcMode : Nat) (t : Option Int)
    (now : Int) (q : String) (fs2 : FS)
    (h : (FileCache.put_file cfg fl fs src srcData srcMode t now).1 =
      .ok q fs2) :
    q = pathJoin cfg.path (baseName src) ∧
    (FileCache.put_file cfg fl fs src srcData srcMode t now).2 =
      [.writeFile q, .utime q, .chmod q] := by
  simp only [FileCache.put_file] at h ⊢
  have h0 : ¬ fl.listFail = true := by
    intro hc
    rw [if_pos hc] at h
    simp at h
  rw [if_neg h0] at h ⊢
  by_cases h1 : fl.copyFail = true
  · rw [if_pos h1] at h
    simp at h
  · rw [if_neg h1] at h ⊢
    cases heq : FileCache.expiresOf cfg t now with
    | none =>
      rw [heq] at h
      simp at h
    | some e =>
      rw [heq] at h
      dsimp only at h ⊢
      by_cases h2 : fl.utimeFail = true
      · rw [if_pos h2] at h
        simp at h
      · rw [if_neg h2] at h ⊢
        by_cases h3 : fl.chmodFail = true
        · rw [if_pos h3] at h
          simp at h
        · rw [if_neg h3] at h ⊢
          dsimp only at h ⊢
          injection h with hq hfs
          subst hq
          exact ⟨rfl, rfl⟩

/-- C6 (amended): `put` publishes content only through the atomic-write
protocol — every direct content write in its event trace targets the
suffix-carrying temporary name, and a successful `put` renames that
temporary over the returned destination path; `put_file`, by contrast,
performs no temp-file creation and no rename at all: it writes the
destination path directly via the copy, so a partially copied destination
is observable under the key during the write. -/
theorem put_atomic_put_file_direct (cfg : Config) (fl : Faults) (fs : FS)
    (key : String) (data : Bytes) (t : Option Int) (now : Int) (rand : String)
    (src : String) (srcData : Bytes) (srcMode : Nat) :
    (∀ n, Ev.writeFile n ∈ (FileCache.put cfg fl fs key data t now rand).2 →
      n = rand ++ tmpSuffix) ∧
    (∀ q fs2, (FileCache.put cfg fl fs key data t now rand).1 = .ok q fs2 →
      Ev.rename (rand ++ tmpSuffix) q ∈
        (FileCache.put cfg fl fs key data t now rand).2) ∧
    (∀ a b, Ev.rename a b ∉
      (FileCache.put_file cfg fl fs src srcData srcMode t now).2) ∧
    (∀ n, Ev.createTmp n ∉
      (FileCache.put_file cfg fl fs src srcData srcMode t now).2) ∧
    (∀ q fs2,
      (FileCache.put_file cfg fl fs src srcData srcMode t now).1 =
        .ok q fs2 →
      q = pathJoin cfg.path (baseName src) ∧
      Ev.writeFile q ∈
        (FileCache.put_file cfg fl fs src srcData srcMode t now).2) := by
  refine ⟨?_, ?_, ?_, ?_, ?_⟩
  · intro n hn
    simp only [FileCache.put] at hn
    repeat' split at hn
    all_goals simp_all
  · intro q fs2 hq
    obtain ⟨-, -, htr⟩ := FileCache.put_ok_inv _ _ _ _ _ _ _ _ _ _ hq
    rw [htr]
    simp
  · intro a b hab
    simp only [FileCache.put_file] at hab
    repeat' split at hab
    all_goals simp_all
  · intro n hn
    simp only [FileCache.put_file] at hn
    repeat' split at hn
    all_goals simp_all
  · intro q fs2 hq
    obtain ⟨hqe, htr⟩ :=
      FileCache.put_file_ok_inv _ _ _ _ _ _ _ _ _ _ hq
    refine ⟨hqe, ?_⟩
    rw [htr]
    simp

/-- C6 witness: the protocol theorem applied to a concrete successful put,
extracting its rename event. -/
theorem put_atomic_put_file_direct_witness :
    Ev.rename ("r" ++ tmpSuffix) "/c/k" ∈
      (FileCache.put ⟨"/c", 5, 3000, 0o600⟩ noFaults ⟨[]⟩ "k" [1, 2] none 10
        "r").2 :=
  (put_atomic_put_file_direct ⟨"/c", 5, 3000, 0o600⟩ noFaults ⟨[]⟩ "k" [1, 2]
    none 10 "r" "/tmp/s" [3] 0o644).2.1 "/c/k" ⟨[⟨"k", [1, 2], 3010, 384⟩]⟩
    (by decide)
